import Mathlib

/-!
Verification of the credential-acquisition and browser-orchestration core
of the collector system, shallowly embedded from the Python sources
(`src/app/profiles.py`, `src/collectors/runner.py`,
`src/collectors/chrome_cookies.py`, `src/collectors/granola_api.py`,
`src/collectors/fyxer_api.py`, `src/collectors/firebase_idb.py`,
`src/collectors/claude_api.py`).

Byte strings are modelled as `List Nat`, Python `dict`s as association
lists with replace-on-insert semantics, clock readings and token
timestamps as rationals, and fallible operations (exceptions) as
`Option`/`Except` values.
-/

namespace SjHomeAgent

/-- Byte strings (Python `bytes`). -/
abbrev Bytes := List Nat

/-- Association-list update with Python `dict` semantics:
replace the value of an existing key in place, else append. -/
def setA {β : Type} : List (String × β) → String → β → List (String × β)
  | [], k, v => [(k, v)]
  | e :: rest, k, v => if e.1 = k then (k, v) :: rest else e :: setA rest k v

/-- Association-list lookup (Python `dict.get` / `dict[...]`). -/
def lookupA {β : Type} (m : List (String × β)) (k : String) : Option β :=
  (m.find? (fun e => e.1 = k)).map (fun e => e.2)

theorem lookupA_setA_self {β : Type} (m : List (String × β)) (k : String) (v : β) :
    lookupA (setA m k v) k = some v := by
  induction m with
  | nil => simp [setA, lookupA]
  | cons e rest ih =>
    by_cases h : e.1 = k
    · simp [setA, lookupA, h]
    · simpa [setA, lookupA, h, List.find?] using ih

theorem lookupA_setA_ne {β : Type} (m : List (String × β)) (k k' : String) (v : β)
    (h : k' ≠ k) : lookupA (setA m k v) k' = lookupA m k' := by
  induction m with
  | nil => simp [setA, lookupA, List.find?, Ne.symm h]
  | cons e rest ih =>
    by_cases he : e.1 = k
    · simp [setA, lookupA, List.find?, he, Ne.symm h]
    · by_cases he' : e.1 = k'
      · simp [setA, lookupA, List.find?, he, he', h]
      · simpa [setA, lookupA, List.find?, he, he'] using ih

/-! ### CDP profiles — `src/app/profiles.py` -/

/-- A Chrome CDP profile bound to specific platforms
(`CDPProfile`, profiles.py lines 14-19). -/
structure CDPProfile where
  name : String
  platforms : List String
  deriving Repr, DecidableEq

/-- `DEFAULT_PROFILES` (profiles.py lines 22-25). -/
def DEFAULT_PROFILES : List CDPProfile :=
  [⟨"personal", ["claude", "chatgpt"]⟩,
   ⟨"company", ["gemini", "fyxer", "granola"]⟩]

/-- `get_profile_for_platform` (profiles.py lines 28-36): first profile
whose platform tuple contains the platform, else `none`. -/
def get_profile_for_platform (platform : String) (profiles : List CDPProfile) :
    Option CDPProfile :=
  profiles.find? (fun profile => profile.platforms.contains platform)

/-- `profile.name if profile else None` — the dict key used by
`group_platforms_by_profile`. -/
def profileKey (p : Option CDPProfile) : Option String :=
  p.map CDPProfile.name

/-- The key the grouping assigns to a platform. -/
def platformKey (profiles : List CDPProfile) (platform : String) : Option String :=
  profileKey (get_profile_for_platform platform profiles)

/-- One step of `group_platforms_by_profile`'s dict update
(profiles.py lines 56-62): append the platform to the entry with the
given key, creating the entry at the end on first encounter
(`seen_keys` order). -/
def addToGroups :
    List (Option String × Option CDPProfile × List String) → Option String →
      Option CDPProfile → String →
      List (Option String × Option CDPProfile × List String)
  | [], key, profile, platform => [(key, profile, [platform])]
  | e :: rest, key, profile, platform =>
    if e.1 = key then (e.1, e.2.1, e.2.2 ++ [platform]) :: rest
    else e :: addToGroups rest key profile platform

/-- The accumulated `(key, (profile, platforms))` state of
`group_platforms_by_profile` after the loop over `platforms`. -/
def groupState (platforms : List String) (profiles : List CDPProfile) :
    List (Option String × Option CDPProfile × List String) :=
  platforms.foldl
    (fun acc platform =>
      addToGroups acc (platformKey profiles platform)
        (get_profile_for_platform platform profiles) platform)
    []

/-- `group_platforms_by_profile` (profiles.py lines 44-64). -/
def group_platforms_by_profile (platforms : List String)
    (profiles : List CDPProfile) : List (Option CDPProfile × List String) :=
  (groupState platforms profiles).map (fun e => e.2)

/-- First-encounter-order deduplication of a key sequence
(the contents of `seen_keys`). -/
def encounterDedup (ks : List (Option String)) : List (Option String) :=
  ks.foldl (fun acc k => if k ∈ acc then acc else acc ++ [k]) []

theorem mem_encounterDedup_foldl (l : List (Option String))
    (acc : List (Option String)) (x : Option String) :
    x ∈ l.foldl (fun acc k => if k ∈ acc then acc else acc ++ [k]) acc ↔
      x ∈ acc ∨ x ∈ l := by
  induction l generalizing acc with
  | nil => simp
  | cons k rest ih =>
    simp only [List.foldl_cons, ih]
    by_cases hk : k ∈ acc
    · simp only [if_pos hk, List.mem_cons]
      constructor
      · rintro (h | h)
        · exact Or.inl h
        · exact Or.inr (Or.inr h)
      · rintro (h | h | h)
        · exact Or.inl h
        · exact Or.inl (h ▸ hk)
        · exact Or.inr h
    · simp only [if_neg hk, List.mem_append, List.mem_singleton, List.mem_cons]
      tauto

theorem mem_encounterDedup (l : List (Option String)) (x : Option String) :
    x ∈ encounterDedup l ↔ x ∈ l := by
  simpa using mem_encounterDedup_foldl l [] x

theorem addToGroups_keys (acc : List (Option String × Option CDPProfile × List String))
    (k : Option String) (pr : Option CDPProfile) (p : String) :
    (addToGroups acc k pr p).map (fun e => e.1) =
      if k ∈ acc.map (fun e => e.1) then acc.map (fun e => e.1)
      else acc.map (fun e => e.1) ++ [k] := by
  induction acc with
  | nil => simp [addToGroups]
  | cons e rest ih =>
    by_cases he : e.1 = k
    · simp [addToGroups, he]
    · simp only [addToGroups, if_neg he, List.map_cons, ih, List.mem_cons]
      by_cases hk : k ∈ rest.map (fun e => e.1)
      · simp [hk, Ne.symm he]
      · simp [hk, Ne.symm he]

theorem encounterDedup_nodup_foldl (l : List (Option String))
    (acc : List (Option String)) (h : acc.Nodup) :
    (l.foldl (fun acc k => if k ∈ acc then acc else acc ++ [k]) acc).Nodup := by
  induction l generalizing acc with
  | nil => simpa using h
  | cons k rest ih =>
    simp only [List.foldl_cons]
    by_cases hk : k ∈ acc
    · simpa [hk] using ih acc h
    · refine ih _ ?_
      simp only [if_neg hk]
      exact List.Nodup.append h (List.nodup_singleton k)
        (by simpa using fun hx => hk hx)

theorem encounterDedup_nodup (l : List (Option String)) :
    (encounterDedup l).Nodup :=
  encounterDedup_nodup_foldl l [] List.nodup_nil

theorem addToGroups_consistent
    (acc : List (Option String × Option CDPProfile × List String))
    (k : Option String) (pr : Option CDPProfile) (p : String)
    (hacc : ∀ e ∈ acc, profileKey e.2.1 = e.1) (hpr : profileKey pr = k) :
    ∀ e ∈ addToGroups acc k pr p, profileKey e.2.1 = e.1 := by
  induction acc with
  | nil =>
    intro e he
    simp only [addToGroups, List.mem_singleton] at he
    subst he; exact hpr
  | cons e0 rest ih =>
    intro e he
    by_cases h0 : e0.1 = k
    · simp only [addToGroups, if_pos h0, List.mem_cons] at he
      rcases he with he | he
      · subst he; exact hacc e0 (List.mem_cons_self _ _)
      · exact hacc e (List.mem_cons_of_mem _ he)
    · simp only [addToGroups, if_neg h0, List.mem_cons] at he
      rcases he with he | he
      · subst he; exact hacc e (List.mem_cons_self _ _)
      · exact ih (fun e' he' => hacc e' (List.mem_cons_of_mem _ he')) e he

theorem addToGroups_filter (profiles : List CDPProfile)
    (xs : List String) (p : String) (k : Option String) (pr : Option CDPProfile)
    (acc : List (Option String × Option CDPProfile × List String))
    (hk : platformKey profiles p = k)
    (hnd : (acc.map (fun e => e.1)).Nodup)
    (hfilter : ∀ e ∈ acc, e.2.2 = xs.filter (fun q => platformKey profiles q = e.1))
    (hfresh : k ∉ acc.map (fun e => e.1) → ∀ q ∈ xs, platformKey profiles q ≠ k) :
    ∀ e ∈ addToGroups acc k pr p,
      e.2.2 = (xs ++ [p]).filter (fun q => platformKey profiles q = e.1) := by
  induction acc with
  | nil =>
    intro e he
    simp only [addToGroups, List.mem_singleton] at he
    subst he
    have hempty : xs.filter (fun q => decide (platformKey profiles q = k)) = [] := by
      refine List.filter_eq_nil_iff.2 (fun q hq => ?_)
      simpa using hfresh (by simp) q hq
    simp [List.filter_append, hempty, hk]
  | cons e0 rest ih =>
    intro e he
    have hndc : (e0.1 :: rest.map (fun e => e.1)).Nodup := by simpa using hnd
    have hnd0 : e0.1 ∉ rest.map (fun e => e.1) := (List.nodup_cons.1 hndc).1
    have hndr : (rest.map (fun e => e.1)).Nodup := (List.nodup_cons.1 hndc).2
    by_cases h0 : e0.1 = k
    · simp only [addToGroups, if_pos h0, List.mem_cons] at he
      rcases he with he | he
      · subst he
        have := hfilter e0 (List.mem_cons_self _ _)
        simp only [List.filter_append]
        simp [this, h0, hk]
      · have hne : platformKey profiles p ≠ e.1 := by
          intro hc
          exact hnd0 (by
            rw [h0, ← hk, hc]
            exact List.mem_map_of_mem (fun e => e.1) he)
        have := hfilter e (List.mem_cons_of_mem _ he)
        simp [List.filter_append, this, hne]
    · simp only [addToGroups, if_neg h0, List.mem_cons] at he
      rcases he with he | he
      · subst he
        have hne : platformKey profiles p ≠ e.1 := by rw [hk]; exact Ne.symm h0
        have := hfilter e (List.mem_cons_self _ _)
        simp [List.filter_append, this, hne]
      · refine ih hndr (fun e' he' => hfilter e' (List.mem_cons_of_mem _ he')) ?_ e he
        intro hkr q hq
        exact hfresh (by simp [hkr, Ne.symm h0]) q hq

/-- Combined loop invariant of `group_platforms_by_profile`'s accumulator,
after processing the platform list `xs`. -/
def GroupInv (profiles : List CDPProfile) (xs : List String)
    (acc : List (Option String × Option CDPProfile × List String)) : Prop :=
  acc.map (fun e => e.1) = encounterDedup (xs.map (platformKey profiles)) ∧
  (∀ e ∈ acc, profileKey e.2.1 = e.1) ∧
  (∀ e ∈ acc, e.2.2 = xs.filter (fun q => platformKey profiles q = e.1))

theorem groupInv_step (profiles : List CDPProfile) (xs : List String) (p : String)
    (acc : List (Option String × Option CDPProfile × List String))
    (h : GroupInv profiles xs acc) :
    GroupInv profiles (xs ++ [p])
      (addToGroups acc (platformKey profiles p)
        (get_profile_for_platform p profiles) p) := by
  obtain ⟨hkeys, hcons, hfilter⟩ := h
  have hnd : (acc.map (fun e => e.1)).Nodup := by
    rw [hkeys]; exact encounterDedup_nodup _
  refine ⟨?_, ?_, ?_⟩
  · rw [addToGroups_keys, hkeys]
    simp only [List.map_append, List.map_cons, List.map_nil, encounterDedup,
      List.foldl_append, List.foldl_cons, List.foldl_nil]
  · exact addToGroups_consistent acc _ _ p hcons rfl
  · refine addToGroups_filter profiles xs p _ _ acc rfl hnd hfilter ?_
    intro hfresh q hq hqk
    rw [hkeys] at hfresh
    refine hfresh ((mem_encounterDedup _ _).2 ?_)
    rw [← hqk]
    exact List.mem_map_of_mem (platformKey profiles) hq

theorem groupInv_foldl (profiles : List CDPProfile) (ys : List String) :
    ∀ (xs : List String) acc, GroupInv profiles xs acc →
      GroupInv profiles (xs ++ ys)
        (ys.foldl
          (fun acc platform =>
            addToGroups acc (platformKey profiles platform)
              (get_profile_for_platform platform profiles) platform) acc) := by
  induction ys with
  | nil => intro xs acc h; simpa using h
  | cons y ys ih =>
    intro xs acc h
    have := ih (xs ++ [y]) _ (groupInv_step profiles xs y acc h)
    simpa [List.append_assoc] using this

theorem groupState_inv (platforms : List String) (profiles : List CDPProfile) :
    GroupInv profiles platforms (groupState platforms profiles) := by
  have := groupInv_foldl profiles platforms [] []
    ⟨by simp [encounterDedup], by simp, by simp⟩
  simpa [groupState] using this

theorem group_keys (platforms : List String) (profiles : List CDPProfile) :
    (group_platforms_by_profile platforms profiles).map (fun g => profileKey g.1) =
      encounterDedup (platforms.map (platformKey profiles)) := by
  obtain ⟨hkeys, hcons, _⟩ := groupState_inv platforms profiles
  rw [← hkeys, group_platforms_by_profile, List.map_map]
  exact List.map_congr_left (fun e he => hcons e he)

theorem group_lists (platforms : List String) (profiles : List CDPProfile) :
    ∀ g ∈ group_platforms_by_profile platforms profiles,
      g.2 = platforms.filter (fun q => platformKey profiles q = profileKey g.1) := by
  obtain ⟨_, hcons, hfilter⟩ := groupState_inv platforms profiles
  intro g hg
  simp only [group_platforms_by_profile, List.mem_map] at hg
  obtain ⟨e, he, rfl⟩ := hg
  rw [hfilter e he, hcons e he]

/-- Every platform of every group was requested, and every requested
platform lands in some group. -/
theorem group_mem (platforms : List String) (profiles : List CDPProfile)
    (q : String) :
    (q ∈ platforms ↔
      ∃ g ∈ group_platforms_by_profile platforms profiles, q ∈ g.2) := by
  constructor
  · intro hq
    have hkmem : platformKey profiles q ∈
        (group_platforms_by_profile platforms profiles).map (fun g => profileKey g.1) := by
      rw [group_keys]
      exact (mem_encounterDedup _ _).2 (List.mem_map_of_mem _ hq)
    obtain ⟨g, hg, hgk⟩ := List.mem_map.1 hkmem
    refine ⟨g, hg, ?_⟩
    rw [group_lists platforms profiles g hg, hgk]
    simpa using hq
  · rintro ⟨g, hg, hq⟩
    rw [group_lists platforms profiles g hg] at hq
    exact (List.mem_filter.1 hq).1

/-! ### Normalized records and the date filter — `src/ingest/normalize.py`,
`src/collectors/runner.py` -/

/-- `RawConversation`: the common normalized record shape. Dates are ISO
`YYYY-MM-DD` strings compared lexicographically, as in the Python. -/
structure RawConversation where
  platform : String
  title : String
  url : String
  date : Option String
  preview : Option String
  deriving Repr, DecidableEq

/-- The loop body of `_filter_by_date` (runner.py lines 220-226):
append a conversation when its date is missing or at least the cutoff. -/
def dateStep (cutoff : String) (result : List RawConversation)
    (conv : RawConversation) : List RawConversation :=
  match conv.date with
  | none => result ++ [conv]
  | some d => if cutoff ≤ d then result ++ [conv] else result

/-- `_filter_by_date` (runner.py lines 210-227). The Python computes
`cutoff = (date.today() - timedelta(days=days)).isoformat()` from the
host clock; the clock-dependent cutoff string is taken as the parameter
here, and the claims quantify over it. -/
def _filter_by_date (conversations : List RawConversation) (cutoff : String) :
    List RawConversation :=
  conversations.foldl (dateStep cutoff) []

/-- The predicate `_filter_by_date` keeps a record by. -/
def keptByDate (cutoff : String) (conv : RawConversation) : Bool :=
  match conv.date with
  | none => true
  | some d => cutoff ≤ d

theorem dateStep_eq (cutoff : String) (acc : List RawConversation)
    (conv : RawConversation) :
    dateStep cutoff acc conv =
      if keptByDate cutoff conv then acc ++ [conv] else acc := by
  match hc : conv.date with
  | none => simp [dateStep, keptByDate, hc]
  | some d =>
    by_cases hd : cutoff ≤ d
    · simp [dateStep, keptByDate, hc, hd]
    · simp [dateStep, keptByDate, hc, hd]

theorem filter_by_date_foldl (cutoff : String) (conversations : List RawConversation) :
    ∀ acc, conversations.foldl (dateStep cutoff) acc =
      acc ++ conversations.filter (keptByDate cutoff) := by
  induction conversations with
  | nil => intro acc; simp
  | cons c rest ih =>
    intro acc
    rw [List.foldl_cons, dateStep_eq, List.filter_cons]
    by_cases hk : keptByDate cutoff c
    · rw [if_pos hk, ih, if_pos hk]
      simp
    · rw [if_neg hk, ih, if_neg hk]

theorem filter_by_date_eq (cutoff : String) (conversations : List RawConversation) :
    _filter_by_date conversations cutoff =
      conversations.filter (keptByDate cutoff) := by
  simpa [_filter_by_date] using filter_by_date_foldl cutoff conversations []

/-! ### Token validity checks — `src/collectors/granola_api.py`,
`src/collectors/firebase_idb.py` -/

/-- `_TOKEN_EXPIRY_BUFFER_S = 300` (granola_api.py line 27 and
firebase_idb.py line 46). -/
def _TOKEN_EXPIRY_BUFFER_S : ℚ := 300

/-- `_is_token_expired` (granola_api.py lines 66-69). `time.time()` is
passed in as `now`. -/
def _is_token_expired (obtained_at_s : ℚ) (expires_in_s : ℚ) (now : ℚ) : Bool :=
  decide (obtained_at_s + expires_in_s - _TOKEN_EXPIRY_BUFFER_S < now)

/-- The validity branch of `get_firebase_token`
(firebase_idb.py lines 362-366): `expiration_time > now_ms + buffer_ms`
with `buffer_ms = _TOKEN_EXPIRY_BUFFER_S * 1000`. -/
def firebase_token_valid (expiration_time_ms : ℚ) (now_ms : ℚ) : Bool :=
  decide (now_ms + _TOKEN_EXPIRY_BUFFER_S * 1000 < expiration_time_ms)

/-! ### The collector runner — `src/collectors/runner.py` -/

/-- Observable actions of `run_all`'s main loop: a Chrome termination
(`_close_chrome`) or the collection pass for one platform. -/
inductive RunEvent where
  | close : RunEvent
  | collect : String → RunEvent
  deriving Repr, DecidableEq

/-- The loop state of `run_all`: `last_profile_name`, the emitted
events, and the `results` count dict. -/
structure RunState where
  last : Option String
  events : List RunEvent
  results : List (String × Nat)
  deriving Repr, DecidableEq

/-- The count recorded for one platform by `run_all`'s per-platform
`try`/`except` (runner.py lines 459-467): the persisted count on
success, `0` if collecting or persisting raised. -/
def outcomeCount (collectF : String → Except String (List RawConversation))
    (persistF : String → List RawConversation → Except String Nat)
    (platform : String) : Nat :=
  match (collectF platform).bind (persistF platform) with
  | .ok n => n
  | .error _ => 0

/-- One iteration of `run_all`'s group loop (runner.py lines 443-467):
close Chrome when the profile name changes and a previous group ran,
then collect and persist every platform of the group. -/
def run_all_group (collectF : String → Except String (List RawConversation))
    (persistF : String → List RawConversation → Except String Nat)
    (st : RunState) (g : Option CDPProfile × List String) : RunState :=
  let current := profileKey g.1
  let closes : List RunEvent :=
    if current ≠ st.last ∧ st.last ≠ none then [RunEvent.close] else []
  { last := current
    events := st.events ++ closes ++ g.2.map RunEvent.collect
    results := g.2.foldl
      (fun res platform => setA res platform (outcomeCount collectF persistF platform))
      st.results }

/-- `run_all`'s iteration over a group list from the initial state. -/
def run_groups (collectF : String → Except String (List RawConversation))
    (persistF : String → List RawConversation → Except String Nat)
    (groups : List (Option CDPProfile × List String)) : RunState :=
  groups.foldl (run_all_group collectF persistF) ⟨none, [], []⟩

/-- `run_all` (runner.py lines 403-469). `init_db`, settings loading and
logging are effect-only and elided; collecting and persisting for one
platform are the fallible parameters `collectF` and `persistF`. An
unknown `profile_override` returns the empty results immediately
(runner.py lines 429-436). -/
def run_all (platforms : List String) (profiles : List CDPProfile)
    (profile_override : Option String)
    (collectF : String → Except String (List RawConversation))
    (persistF : String → List RawConversation → Except String Nat) : RunState :=
  match profile_override with
  | some name =>
    match profiles.find? (fun p => p.name = name) with
    | none => ⟨none, [], []⟩
    | some profile => run_groups collectF persistF [(some profile, platforms)]
  | none => run_groups collectF persistF (group_platforms_by_profile platforms profiles)

/-- Number of `_close_chrome` calls in an event trace. -/
def countCloses (events : List RunEvent) : Nat :=
  events.countP (fun e => decide (e = RunEvent.close))

/-- Number of profile switches away from a named profile along a key
sequence, starting from a given previous key. -/
def namedSwitches : Option String → List (Option String) → Nat
  | _, [] => 0
  | last, k :: rest =>
    (if k ≠ last ∧ last ≠ none then 1 else 0) + namedSwitches k rest

/-- The claim-shaped form of `run_all`'s event trace: per group, a
single close exactly on a switch away from a named profile, then that
group's collection passes, in order. -/
def groupBlocks : Option String → List (Option CDPProfile × List String) → List RunEvent
  | _, [] => []
  | last, g :: rest =>
    (if profileKey g.1 ≠ last ∧ last ≠ none then [RunEvent.close] else [])
      ++ g.2.map RunEvent.collect ++ groupBlocks (profileKey g.1) rest

theorem run_groups_events_aux (collectF : String → Except String (List RawConversation))
    (persistF : String → List RawConversation → Except String Nat)
    (groups : List (Option CDPProfile × List String)) :
    ∀ st : RunState,
      (groups.foldl (run_all_group collectF persistF) st).events =
        st.events ++ groupBlocks st.last groups := by
  induction groups with
  | nil => intro st; simp [groupBlocks]
  | cons g rest ih =>
    intro st
    rw [List.foldl_cons, ih]
    simp [run_all_group, groupBlocks, List.append_assoc]

theorem run_groups_events (collectF : String → Except String (List RawConversation))
    (persistF : String → List RawConversation → Except String Nat)
    (groups : List (Option CDPProfile × List String)) :
    (run_groups collectF persistF groups).events = groupBlocks none groups := by
  simpa [run_groups] using run_groups_events_aux collectF persistF groups ⟨none, [], []⟩

theorem countCloses_groupBlocks (groups : List (Option CDPProfile × List String)) :
    ∀ last, countCloses (groupBlocks last groups) =
      namedSwitches last (groups.map (fun g => profileKey g.1)) := by
  induction groups with
  | nil => intro last; simp [groupBlocks, namedSwitches, countCloses]
  | cons g rest ih =>
    intro last
    by_cases h : profileKey g.1 ≠ last ∧ last ≠ none
    · simp [groupBlocks, namedSwitches, countCloses, h, List.countP_append,
        List.countP_map, ih, List.countP_eq_zero.2]
      simp [countCloses] at ih
      rw [ih]
      have : (List.countP ((fun e => decide (e = RunEvent.close)) ∘ RunEvent.collect) g.2) = 0 :=
        List.countP_eq_zero.2 (by intro a _; simp)
      omega
    · simp [groupBlocks, namedSwitches, countCloses, h, List.countP_append,
        List.countP_map]
      simp [countCloses] at ih
      rw [ih]
      have : (List.countP ((fun e => decide (e = RunEvent.close)) ∘ RunEvent.collect) g.2) = 0 :=
        List.countP_eq_zero.2 (by intro a _; simp)
      omega

theorem lookup_setA_fold (f : String → Nat) (plats : List String) :
    ∀ (res : List (String × Nat)) (q : String),
      lookupA (plats.foldl (fun res platform => setA res platform (f platform)) res) q =
        if q ∈ plats then some (f q) else lookupA res q := by
  induction plats with
  | nil => intro res q; simp
  | cons p rest ih =>
    intro res q
    rw [List.foldl_cons, ih]
    by_cases hq : q ∈ rest
    · simp [hq]
    · by_cases hqp : q = p
      · subst hqp
        simp [hq, lookupA_setA_self]
      · simp [hq, hqp, lookupA_setA_ne res p q (f p) hqp]

/-- All platforms of a group list. -/
def groupsPlatforms (groups : List (Option CDPProfile × List String)) : List String :=
  (groups.map (fun g => g.2)).flatten

theorem lookup_run_groups_aux (collectF : String → Except String (List RawConversation))
    (persistF : String → List RawConversation → Except String Nat)
    (groups : List (Option CDPProfile × List String)) :
    ∀ (st : RunState) (q : String),
      lookupA (groups.foldl (run_all_group collectF persistF) st).results q =
        if q ∈ groupsPlatforms groups then some (outcomeCount collectF persistF q)
        else lookupA st.results q := by
  induction groups with
  | nil => intro st q; simp [groupsPlatforms]
  | cons g rest ih =>
    intro st q
    rw [List.foldl_cons, ih]
    by_cases hq : q ∈ groupsPlatforms rest
    · have hq2 : q ∈ groupsPlatforms (g :: rest) := by
        simp only [groupsPlatforms, List.map_cons, List.flatten_cons, List.mem_append]
        exact Or.inr (by simpa [groupsPlatforms] using hq)
      rw [if_pos hq, if_pos hq2]
    · by_cases hg : q ∈ g.2
      · have hq2 : q ∈ groupsPlatforms (g :: rest) := by
          simp only [groupsPlatforms, List.map_cons, List.flatten_cons, List.mem_append]
          exact Or.inl hg
        rw [if_neg hq, if_pos hq2]
        simp only [run_all_group]
        rw [lookup_setA_fold]
        simp [hg]
      · have : q ∉ groupsPlatforms (g :: rest) := by
          simp only [groupsPlatforms, List.map_cons, List.flatten_cons, List.mem_append]
          rintro (h | h)
          · exact hg h
          · exact hq h
        simp only [if_neg hq, if_neg this, run_all_group]
        rw [lookup_setA_fold (outcomeCount collectF persistF) g.2 st.results q]
        simp [hg]

theorem lookup_run_groups (collectF : String → Except String (List RawConversation))
    (persistF : String → List RawConversation → Except String Nat)
    (groups : List (Option CDPProfile × List String)) (q : String) :
    lookupA (run_groups collectF persistF groups).results q =
      if q ∈ groupsPlatforms groups then some (outcomeCount collectF persistF q)
      else none := by
  simpa [run_groups, lookupA] using
    lookup_run_groups_aux collectF persistF groups ⟨none, [], []⟩ q

theorem mem_groupsPlatforms (platforms : List String) (profiles : List CDPProfile)
    (q : String) :
    q ∈ groupsPlatforms (group_platforms_by_profile platforms profiles) ↔
      q ∈ platforms := by
  simp only [groupsPlatforms, List.mem_flatten, List.mem_map]
  rw [group_mem platforms profiles q]
  constructor
  · rintro ⟨l, ⟨g, hg, rfl⟩, hq⟩
    exact ⟨g, hg, hq⟩
  · rintro ⟨g, hg, hq⟩
    exact ⟨g.2, ⟨g, hg, rfl⟩, hq⟩

/-! ### The Claude API adapter — `src/collectors/claude_api.py` -/

/-- `collect_claude` (claude_api.py lines 79-146). The three fallible
steps — `_get_session_cookie` (cookie extraction), `_get_org_id` and
`_fetch_conversations` (network calls) — are the `Except`-valued
parameters; every exception branch returns `[]`, as in the source. The
per-conversation record construction and date cutoff filter over the
fetched list is the final `filter`, with `rawConvs` standing for the
already-normalized fetched records and `cutoff` for
`(date.today() - timedelta(days=days)).isoformat()`. -/
def collect_claude (sessionCookie : Except String String)
    (fetchOrg : String → Except String String)
    (fetchConvs : String → String → Except String (List RawConversation))
    (cutoff : String) : List RawConversation :=
  match sessionCookie with
  | .error _ => []
  | .ok session_key =>
    match fetchOrg session_key with
    | .error _ => []
    | .ok org_id =>
      match fetchConvs session_key org_id with
      | .error _ => []
      | .ok rawConvs => rawConvs.filter (keptByDate cutoff)

/-- The count returned by `_persist_conversations`
(runner.py lines 346-400): one upsert per classified conversation, so
the return value is the number of conversations handed in. The writes
themselves (Obsidian file, DB, vector index) are effect-only. -/
def _persist_conversations (conversations : List RawConversation) : Nat :=
  conversations.length

/-! ### Chrome cookie decryption — `src/collectors/chrome_cookies.py`

The AES-128-CBC cipher itself lives in the PyCryptodome library, so it
is abstracted as a pair of whole-buffer functions `enc`/`dec` taking the
key and IV; the library contract used in the claims is that `dec` is a
left inverse of `enc` on block-aligned buffers. Decrypting a buffer
whose length is not a multiple of the 16-byte block size raises
`ValueError` in the library (CBC requires block-aligned input); a raised
exception is modelled as `none`. -/

/-- `_IV = b" " * 16` (chrome_cookies.py line 31). -/
def _IV : Bytes := List.replicate 16 32

/-- The `b"v10"` version tag. -/
def v10Tag : Bytes := [118, 49, 48]

/-- PKCS7 padding to the 16-byte block size (as produced by Chrome's
encryption; used by `encrypt_value` below). -/
def pkcs7Pad (m : Bytes) : Bytes :=
  m ++ List.replicate (16 - m.length % 16) (16 - m.length % 16)

/-- The padding removal of `_decrypt_value`
(chrome_cookies.py lines 68-71): read the last byte, and when it is in
`1..16` drop that many bytes (the padding bytes themselves are not
verified). -/
def chromeUnpad (d : Bytes) : Bytes :=
  let padding_len := d.getLastD 0
  if 0 < padding_len ∧ padding_len ≤ 16 then d.take (d.length - padding_len) else d

/-- `_decrypt_value` (chrome_cookies.py lines 50-77), up to the final
UTF-8 decode (which is the inverse of the UTF-8 encode used when the
cookie was stored, and is elided by working at the byte level).
`dec key iv data` stands for `AES.new(key, AES.MODE_CBC, iv).decrypt(data)`;
`none` models the library's `ValueError` on a non-block-aligned buffer,
which the source does not catch. -/
def _decrypt_value (dec : Bytes → Bytes → Bytes → Bytes) (encrypted : Bytes)
    (key : Bytes) (domain : String) (db_version : Nat) : Option Bytes :=
  if encrypted.length ≤ 3 then some [] else
  if encrypted.take 3 ≠ v10Tag then some [] else
  if ¬ (16 ∣ (encrypted.drop 3).length) then none else
  let decrypted := dec key _IV (encrypted.drop 3)
  let unpadded := chromeUnpad decrypted
  some (if 24 ≤ db_version ∧ 32 < unpadded.length then unpadded.drop 32 else unpadded)

/-- Modelled from the spec: the correctly encrypted form of a cookie
value — 3-byte `v10` tag, AES-CBC over the PKCS7-padded plaintext with
the fixed all-space IV, and for schema version ≥ 24 a 32-byte domain
hash prepended to the plaintext before padding. `enc key iv data`
stands for `AES.new(key, AES.MODE_CBC, iv).encrypt(data)`. -/
def encrypt_value (enc : Bytes → Bytes → Bytes → Bytes) (key : Bytes)
    (domainHash : Bytes) (x : Bytes) (db_version : Nat) : Bytes :=
  v10Tag ++ enc key _IV (pkcs7Pad (if 24 ≤ db_version then domainHash ++ x else x))

theorem pkcs7Pad_len_dvd (m : Bytes) : 16 ∣ (pkcs7Pad m).length := by
  have hm : m.length % 16 < 16 := Nat.mod_lt _ (by norm_num)
  have hdm := Nat.div_add_mod m.length 16
  refine ⟨m.length / 16 + 1, ?_⟩
  simp only [pkcs7Pad, List.length_append, List.length_replicate]
  omega

theorem getLastD_append_replicate (m : Bytes) (p : Nat) (hp : 0 < p) :
    (m ++ List.replicate p p).getLastD 0 = p := by
  match p, hp with
  | q + 1, _ =>
    rw [List.replicate_succ', ← List.append_assoc, List.getLastD_concat]

theorem chromeUnpad_pkcs7Pad (m : Bytes) : chromeUnpad (pkcs7Pad m) = m := by
  have hm : m.length % 16 < 16 := Nat.mod_lt _ (by norm_num)
  have hp : 0 < 16 - m.length % 16 := by omega
  have hlast : (pkcs7Pad m).getLastD 0 = 16 - m.length % 16 :=
    getLastD_append_replicate m _ hp
  have hlen : (pkcs7Pad m).length = m.length + (16 - m.length % 16) := by
    simp [pkcs7Pad]
  rw [chromeUnpad]
  simp only [hlast, hlen]
  rw [if_pos ⟨hp, by omega⟩]
  have h2 : m.length + (16 - m.length % 16) - (16 - m.length % 16) = m.length := by omega
  rw [h2, pkcs7Pad, List.take_left]

theorem decrypt_framing (dec : Bytes → Bytes → Bytes → Bytes) (key : Bytes)
    (E : Bytes) (domain : String) (db_version : Nat)
    (hEdvd : 16 ∣ E.length) (hEpos : 0 < E.length) :
    _decrypt_value dec (v10Tag ++ E) key domain db_version =
      some (if 24 ≤ db_version ∧ 32 < (chromeUnpad (dec key _IV E)).length
        then (chromeUnpad (dec key _IV E)).drop 32
        else chromeUnpad (dec key _IV E)) := by
  obtain ⟨c, hc⟩ := hEdvd
  have hv3 : v10Tag.length = 3 := rfl
  have h1 : ¬ ((v10Tag ++ E).length ≤ 3) := by
    rw [List.length_append, hv3]
    omega
  have h2 : (v10Tag ++ E).take 3 = v10Tag := List.take_left v10Tag E
  have h3 : (v10Tag ++ E).drop 3 = E := List.drop_left v10Tag E
  rw [_decrypt_value, if_neg h1, h2, h3]
  rw [if_neg (by simp), if_neg (by simp [hc])]

theorem decrypt_encrypt_lt24 (enc dec : Bytes → Bytes → Bytes → Bytes)
    (key : Bytes) (domainHash : Bytes) (x : Bytes) (domain : String)
    (db_version : Nat)
    (hlen : ∀ k iv d, (enc k iv d).length = d.length)
    (hinv : ∀ k iv d, 16 ∣ d.length → dec k iv (enc k iv d) = d)
    (hv : db_version < 24) :
    _decrypt_value dec (encrypt_value enc key domainHash x db_version) key
      domain db_version = some x := by
  have hne : ¬ 24 ≤ db_version := by omega
  have hpadlen := pkcs7Pad_len_dvd x
  have henclen : (enc key _IV (pkcs7Pad x)).length = (pkcs7Pad x).length := hlen _ _ _
  have hpadpos : 0 < (pkcs7Pad x).length := by
    have hm : x.length % 16 < 16 := Nat.mod_lt _ (by norm_num)
    simp only [pkcs7Pad, List.length_append, List.length_replicate]
    omega
  have hbody : encrypt_value enc key domainHash x db_version =
      v10Tag ++ enc key _IV (pkcs7Pad x) := by
    simp [encrypt_value, hne]
  rw [hbody,
    decrypt_framing dec key _ domain db_version
      (by rw [henclen]; exact hpadlen) (by rw [henclen]; exact hpadpos),
    hinv _ _ _ hpadlen, chromeUnpad_pkcs7Pad]
  simp [hne]

theorem decrypt_encrypt_ge24 (enc dec : Bytes → Bytes → Bytes → Bytes)
    (key : Bytes) (domainHash : Bytes) (x : Bytes) (domain : String)
    (db_version : Nat)
    (hlen : ∀ k iv d, (enc k iv d).length = d.length)
    (hinv : ∀ k iv d, 16 ∣ d.length → dec k iv (enc k iv d) = d)
    (hhash : domainHash.length = 32) (hv : 24 ≤ db_version) (hx : x ≠ []) :
    _decrypt_value dec (encrypt_value enc key domainHash x db_version) key
      domain db_version = some x := by
  have hpadlen := pkcs7Pad_len_dvd (domainHash ++ x)
  have henclen : (enc key _IV (pkcs7Pad (domainHash ++ x))).length =
      (pkcs7Pad (domainHash ++ x)).length := hlen _ _ _
  have hpadpos : 0 < (pkcs7Pad (domainHash ++ x)).length := by
    have hm : (domainHash ++ x).length % 16 < 16 := Nat.mod_lt _ (by norm_num)
    simp only [pkcs7Pad, List.length_append, List.length_replicate]
    omega
  have hbody : encrypt_value enc key domainHash x db_version =
      v10Tag ++ enc key _IV (pkcs7Pad (domainHash ++ x)) := by
    simp [encrypt_value, hv]
  have hxlen : 0 < x.length := List.length_pos.2 hx
  have hgt : 32 < (domainHash ++ x).length := by
    simp only [List.length_append, hhash]
    omega
  rw [hbody,
    decrypt_framing dec key _ domain db_version
      (by rw [henclen]; exact hpadlen) (by rw [henclen]; exact hpadpos),
    hinv _ _ _ hpadlen, chromeUnpad_pkcs7Pad]
  rw [if_pos ⟨hv, hgt⟩]
  have hdrop : (domainHash ++ x).drop 32 = x := by
    rw [← hhash, List.drop_left]
  rw [hdrop]

/-- One row of the `cookies` table: `host_key, name, value, encrypted_value`
(chrome_cookies.py line 115). -/
structure CookieRow where
  host_key : String
  name : String
  value : Bytes
  encrypted_value : Bytes
  deriving Repr, DecidableEq

/-- The cookie database: the `meta` schema version (via `_get_db_version`)
and the `cookies` rows. -/
structure CookieDB where
  version : Nat
  rows : List CookieRow
  deriving Repr, DecidableEq

/-- The SQL selection `host_key IN (domain, "." + domain)`
(chrome_cookies.py lines 112-118). -/
def hostMatches (domain : String) (r : CookieRow) : Bool :=
  decide (r.host_key = domain) || decide (r.host_key = "." ++ domain)

/-- The loop body over fetched rows (chrome_cookies.py lines 122-128):
a non-empty plaintext `value` wins outright; otherwise a non-empty
`encrypted_value` is decrypted and kept only when the result is
non-empty. `none` propagates an uncaught decryption exception. -/
def cookieStep (dec : Bytes → Bytes → Bytes → Bytes) (key : Bytes)
    (db_version : Nat) (cookies : List (String × Bytes)) (r : CookieRow) :
    Option (List (String × Bytes)) :=
  if r.value ≠ [] then some (setA cookies r.name r.value)
  else if r.encrypted_value ≠ [] then
    match _decrypt_value dec r.encrypted_value key r.host_key db_version with
    | none => none
    | some decrypted =>
      some (if decrypted ≠ [] then setA cookies r.name decrypted else cookies)
  else some cookies

/-- `get_cookies_for_domain` (chrome_cookies.py lines 89-133). The
Keychain key derivation, temp-file copy and SQLite access are
effect-only; the database content is the `db` parameter. `none` models
an exception escaping the row loop. -/
def get_cookies_for_domain (dec : Bytes → Bytes → Bytes → Bytes) (key : Bytes)
    (db : CookieDB) (domain : String) : Option (List (String × Bytes)) :=
  (db.rows.filter (hostMatches domain)).foldlM (cookieStep dec key db.version) []

/-- Whether processing a row raises (an undecryptable `v10` blob). -/
def rowAborts (dec : Bytes → Bytes → Bytes → Bytes) (key : Bytes)
    (db_version : Nat) (r : CookieRow) : Prop :=
  r.value = [] ∧ r.encrypted_value ≠ [] ∧
    _decrypt_value dec r.encrypted_value key r.host_key db_version = none

/-- The value a row contributes to the cookie dict, `none` when it
contributes nothing (or would raise). -/
def rowContrib (dec : Bytes → Bytes → Bytes → Bytes) (key : Bytes)
    (db_version : Nat) (r : CookieRow) : Option Bytes :=
  if r.value ≠ [] then some r.value
  else if r.encrypted_value ≠ [] then
    match _decrypt_value dec r.encrypted_value key r.host_key db_version with
    | none => none
    | some decrypted => if decrypted ≠ [] then some decrypted else none
  else none

theorem cookieStep_none_iff (dec : Bytes → Bytes → Bytes → Bytes) (key : Bytes)
    (db_version : Nat) (m : List (String × Bytes)) (r : CookieRow) :
    cookieStep dec key db_version m r = none ↔ rowAborts dec key db_version r := by
  by_cases h1 : r.value ≠ []
  · simp [cookieStep, rowAborts, h1]
  · by_cases h2 : r.encrypted_value ≠ []
    · match hd : _decrypt_value dec r.encrypted_value key r.host_key db_version with
      | none => simp [cookieStep, rowAborts, h1, h2, hd, not_not.1 h1]
      | some d => simp [cookieStep, rowAborts, h1, h2, hd]
    · simp [cookieStep, rowAborts, h1, h2]

theorem cookieStep_some_cases (dec : Bytes → Bytes → Bytes → Bytes) (key : Bytes)
    (db_version : Nat) (m m1 : List (String × Bytes)) (r : CookieRow)
    (h : cookieStep dec key db_version m r = some m1) :
    (rowContrib dec key db_version r = none ∧ m1 = m) ∨
      (∃ v, rowContrib dec key db_version r = some v ∧ m1 = setA m r.name v) := by
  by_cases h1 : r.value ≠ []
  · right
    refine ⟨r.value, by simp [rowContrib, h1], ?_⟩
    simp only [cookieStep, if_pos h1, Option.some_inj] at h
    exact h.symm
  · by_cases h2 : r.encrypted_value ≠ []
    · match hd : _decrypt_value dec r.encrypted_value key r.host_key db_version with
      | none => simp [cookieStep, h1, h2, hd] at h
      | some d =>
        by_cases hde : d ≠ []
        · right
          refine ⟨d, by simp [rowContrib, h1, h2, hd, hde], ?_⟩
          simp only [cookieStep, if_neg h1, if_pos h2, hd, if_pos hde,
            Option.some_inj] at h
          exact h.symm
        · left
          refine ⟨by simp [rowContrib, h1, h2, hd, hde], ?_⟩
          simp only [cookieStep, if_neg h1, if_pos h2, hd, if_neg hde,
            Option.some_inj] at h
          exact h.symm
    · left
      refine ⟨by simp [rowContrib, h1, h2], ?_⟩
      simp only [cookieStep, if_neg h1, if_neg h2, Option.some_inj] at h
      exact h.symm

theorem rowContrib_ne_nil (dec : Bytes → Bytes → Bytes → Bytes) (key : Bytes)
    (db_version : Nat) (r : CookieRow) (v : Bytes)
    (h : rowContrib dec key db_version r = some v) : v ≠ [] := by
  by_cases h1 : r.value ≠ []
  · simp only [rowContrib, if_pos h1, Option.some_inj] at h
    exact h ▸ h1
  · by_cases h2 : r.encrypted_value ≠ []
    · match hd : _decrypt_value dec r.encrypted_value key r.host_key db_version with
      | none => simp [rowContrib, h1, h2, hd] at h
      | some d =>
        by_cases hde : d ≠ []
        · simp only [rowContrib, if_neg h1, if_pos h2, hd, if_pos hde,
            Option.some_inj] at h
          exact h ▸ hde
        · simp [rowContrib, h1, h2, hd, hde] at h
    · simp [rowContrib, h1, h2] at h

theorem cookieFold_none_iff (dec : Bytes → Bytes → Bytes → Bytes) (key : Bytes)
    (db_version : Nat) (rows : List CookieRow) :
    ∀ m, rows.foldlM (cookieStep dec key db_version) m = none ↔
      ∃ r ∈ rows, rowAborts dec key db_version r := by
  induction rows with
  | nil => intro m; simp
  | cons r rest ih =>
    intro m
    match hs : cookieStep dec key db_version m r with
    | none =>
      have hfold : List.foldlM (cookieStep dec key db_version) m (r :: rest) = none := by
        rw [List.foldlM_cons, hs]
        rfl
      rw [hfold]
      constructor
      · intro _
        exact ⟨r, List.mem_cons_self _ _, (cookieStep_none_iff _ _ _ m r).1 hs⟩
      · intro _
        rfl
    | some m1 =>
      have hfold : List.foldlM (cookieStep dec key db_version) m (r :: rest) =
          List.foldlM (cookieStep dec key db_version) m1 rest := by
        rw [List.foldlM_cons, hs]
        rfl
      rw [hfold, ih m1]
      constructor
      · rintro ⟨q, hq, hab⟩
        exact ⟨q, List.mem_cons_of_mem _ hq, hab⟩
      · rintro ⟨q, hq, hab⟩
        rcases List.mem_cons.1 hq with rfl | hq2
        · exact absurd ((cookieStep_none_iff _ _ _ m q).2 hab) (by simp [hs])
        · exact ⟨q, hq2, hab⟩

theorem cookieFold_lookup_sound (dec : Bytes → Bytes → Bytes → Bytes) (key : Bytes)
    (db_version : Nat) (rows : List CookieRow) :
    ∀ m m', rows.foldlM (cookieStep dec key db_version) m = some m' →
      ∀ nm v, lookupA m' nm = some v →
        (∃ r ∈ rows, r.name = nm ∧ rowContrib dec key db_version r = some v) ∨
          lookupA m nm = some v := by
  induction rows with
  | nil =>
    intro m m' h nm v hv
    simp only [List.foldlM_nil, Option.pure_def, Option.some_inj] at h
    exact Or.inr (h ▸ hv)
  | cons r rest ih =>
    intro m m' h nm v hv
    match hs : cookieStep dec key db_version m r with
    | none =>
      rw [List.foldlM_cons, hs] at h
      exact absurd h (by simp [Option.bind])
    | some m1 =>
      have hfold : List.foldlM (cookieStep dec key db_version) m1 rest = some m' := by
        rw [List.foldlM_cons, hs] at h
        exact h
      rcases ih m1 m' hfold nm v hv with ⟨q, hq, hqs⟩ | hm1
      · exact Or.inl ⟨q, List.mem_cons_of_mem _ hq, hqs⟩
      · rcases cookieStep_some_cases dec key db_version m m1 r hs with ⟨_, rfl⟩ | ⟨w, hw, rfl⟩
        · exact Or.inr hm1
        · by_cases hnm : nm = r.name
          · subst hnm
            rw [lookupA_setA_self] at hm1
            exact Or.inl ⟨r, List.mem_cons_self _ _, rfl,
              by rw [hw, Option.some_inj.1 hm1]⟩
          · rw [lookupA_setA_ne _ _ _ _ hnm] at hm1
            exact Or.inr hm1

theorem lookupA_setA_isSome {β : Type} (m : List (String × β)) (k k' : String) (v : β)
    (h : lookupA m k' ≠ none) : lookupA (setA m k v) k' ≠ none := by
  by_cases hk : k' = k
  · subst hk
    rw [lookupA_setA_self]
    simp
  · rwa [lookupA_setA_ne _ _ _ _ hk]

theorem cookieFold_preserves (dec : Bytes → Bytes → Bytes → Bytes) (key : Bytes)
    (db_version : Nat) (rows : List CookieRow) :
    ∀ m m', rows.foldlM (cookieStep dec key db_version) m = some m' →
      ∀ nm, lookupA m nm ≠ none → lookupA m' nm ≠ none := by
  induction rows with
  | nil =>
    intro m m' h nm hm
    simp only [List.foldlM_nil, Option.pure_def, Option.some_inj] at h
    exact h ▸ hm
  | cons r rest ih =>
    intro m m' h nm hm
    match hs : cookieStep dec key db_version m r with
    | none =>
      rw [List.foldlM_cons, hs] at h
      exact absurd h (by simp [Option.bind])
    | some m1 =>
      have hfold : List.foldlM (cookieStep dec key db_version) m1 rest = some m' := by
        rw [List.foldlM_cons, hs] at h
        exact h
      refine ih m1 m' hfold nm ?_
      rcases cookieStep_some_cases dec key db_version m m1 r hs with ⟨_, rfl⟩ | ⟨w, _, rfl⟩
      · exact hm
      · exact lookupA_setA_isSome m r.name nm w hm

theorem cookieFold_complete (dec : Bytes → Bytes → Bytes → Bytes) (key : Bytes)
    (db_version : Nat) (rows : List CookieRow) :
    ∀ m m', rows.foldlM (cookieStep dec key db_version) m = some m' →
      ∀ r ∈ rows, rowContrib dec key db_version r ≠ none →
        lookupA m' r.name ≠ none := by
  induction rows with
  | nil =>
    intro m m' _ r hr
    simp at hr
  | cons r0 rest ih =>
    intro m m' h r hr hcontrib
    match hs : cookieStep dec key db_version m r0 with
    | none =>
      rw [List.foldlM_cons, hs] at h
      exact absurd h (by simp [Option.bind])
    | some m1 =>
      have hfold : List.foldlM (cookieStep dec key db_version) m1 rest = some m' := by
        rw [List.foldlM_cons, hs] at h
        exact h
      rcases List.mem_cons.1 hr with rfl | hr2
      · refine cookieFold_preserves dec key db_version rest m1 m' hfold r.name ?_
        rcases cookieStep_some_cases dec key db_version m m1 r hs with ⟨hc, rfl⟩ | ⟨w, _, rfl⟩
        · exact absurd hc hcontrib
        · rw [lookupA_setA_self]
          simp
      · exact ih m1 m' hfold r hr2 hcontrib

theorem cookieFold_values_ne_nil (dec : Bytes → Bytes → Bytes → Bytes) (key : Bytes)
    (db_version : Nat) (rows : List CookieRow) :
    ∀ m m', rows.foldlM (cookieStep dec key db_version) m = some m' →
      (∀ nm v, lookupA m nm = some v → v ≠ []) →
      ∀ nm v, lookupA m' nm = some v → v ≠ [] := by
  intro m m' h hm nm v hv
  rcases cookieFold_lookup_sound dec key db_version rows m m' h nm v hv with
    ⟨r, _, _, hr⟩ | hbase
  · exact rowContrib_ne_nil dec key db_version r v hr
  · exact hm nm v hbase

theorem get_cookies_enc_irrelevant (dec : Bytes → Bytes → Bytes → Bytes)
    (key : Bytes) (ver : Nat) (pre post : List CookieRow) (r : CookieRow)
    (b : Bytes) (domain : String) (h : r.value ≠ []) :
    get_cookies_for_domain dec key ⟨ver, pre ++ r :: post⟩ domain =
      get_cookies_for_domain dec key
        ⟨ver, pre ++ (⟨r.host_key, r.name, r.value, b⟩ : CookieRow) :: post⟩ domain := by
  have hmatch : hostMatches domain (⟨r.host_key, r.name, r.value, b⟩ : CookieRow) =
      hostMatches domain r := rfl
  simp only [get_cookies_for_domain, List.filter_append, List.filter_cons, hmatch]
  by_cases hm : hostMatches domain r = true
  · simp only [hm, if_pos]
    rw [List.foldlM_append, List.foldlM_append]
    cases hpre : List.foldlM (cookieStep dec key ver) []
        (pre.filter (hostMatches domain)) with
    | none => rfl
    | some m =>
      show List.foldlM (cookieStep dec key ver) m (r :: _) =
        List.foldlM (cookieStep dec key ver) m (_ :: _)
      rw [List.foldlM_cons, List.foldlM_cons]
      have hstep : cookieStep dec key ver m (⟨r.host_key, r.name, r.value, b⟩ : CookieRow) =
          cookieStep dec key ver m r := by
        simp [cookieStep, h]
      rw [hstep]
  · simp only [hm]
    simp

/-! ### Pagination loops — `src/collectors/granola_api.py`,
`src/collectors/fyxer_api.py` -/

/-- `page_size = 50` (granola_api.py line 166). -/
def granola_page_size : Nat := 50

/-- `_MAX_PAGES = 100` (granola_api.py line 28). -/
def granola_MAX_PAGES : Nat := 100

/-- `_MAX_PAGES = 50` (fyxer_api.py line 30). -/
def fyxer_MAX_PAGES : Nat := 50

/-- The pagination loop of `collect_granola`
(granola_api.py lines 168-214). `pages i` is the outcome of
`_fetch_documents(token, limit=50, offset=50*i)`: a page of documents,
or `.error` for an HTTP/request failure (both `except` arms `break`).
The per-document record construction and date filtering
(lines 181-206) act pointwise on the fetched documents and are elided;
the result is the fetched documents together with the number of fetch
calls made. -/
def granolaLoop {α : Type} (pages : Nat → Except Unit (List α)) :
    Nat → Nat → List α × Nat
  | 0, _ => ([], 0)
  | fuel + 1, page =>
    match pages page with
    | .error _ => ([], 1)
    | .ok docs =>
      if docs.isEmpty then ([], 1)
      else if docs.length < granola_page_size then (docs, 1)
      else
        let r := granolaLoop pages fuel (page + 1)
        (docs ++ r.1, r.2 + 1)

/-- The loop of `collect_granola` runs with fuel `_MAX_PAGES` from
offset 0. -/
def collect_granola_pages {α : Type} (pages : Nat → Except Unit (List α)) :
    List α × Nat :=
  granolaLoop pages granola_MAX_PAGES 0

/-- Python truthiness of the `nextPageToken` (`if not page_token: break`,
fyxer_api.py lines 338-339): missing or empty string. -/
def tokenFalsy (t : Option String) : Bool := t.getD "" = ""

/-- The pagination loop of `collect_fyxer` (fyxer_api.py lines 288-344).
`fetch tok` is the outcome of `_fetch_recordings(..., page_token=tok)`:
a page of documents plus the next page token, or `.error` for an
HTTP/request failure (both `except` arms `break`). Per-document
processing (lines 306-336) is elided as for Granola. -/
def fyxerLoop {α : Type}
    (fetch : Option String → Except Unit (List α × Option String)) :
    Nat → Option String → List α × Nat
  | 0, _ => ([], 0)
  | fuel + 1, tok =>
    match fetch tok with
    | .error _ => ([], 1)
    | .ok (docs, tok2) =>
      if docs.isEmpty then ([], 1)
      else if tokenFalsy tok2 then (docs, 1)
      else
        let r := fyxerLoop fetch fuel tok2
        (docs ++ r.1, r.2 + 1)

/-- The loop of `collect_fyxer` runs with fuel `_MAX_PAGES` from no
page token. -/
def collect_fyxer_pages {α : Type}
    (fetch : Option String → Except Unit (List α × Option String)) :
    List α × Nat :=
  fyxerLoop fetch fyxer_MAX_PAGES none

theorem granolaLoop_le {α : Type} (pages : Nat → Except Unit (List α)) :
    ∀ fuel page, (granolaLoop pages fuel page).2 ≤ fuel := by
  intro fuel
  induction fuel with
  | zero => intro page; simp [granolaLoop]
  | succ fuel ih =>
    intro page
    match hp : pages page with
    | .error e => simp [granolaLoop, hp]
    | .ok docs =>
      simp only [granolaLoop, hp]
      by_cases h1 : docs.isEmpty
      · simp [h1]
      · by_cases h2 : docs.length < granola_page_size
        · simp [h1, h2]
        · simpa [h1, h2] using ih (page + 1)

theorem granolaLoop_pos {α : Type} (pages : Nat → Except Unit (List α)) :
    ∀ fuel page, 0 < fuel → 1 ≤ (granolaLoop pages fuel page).2 := by
  intro fuel page hf
  match fuel, hf with
  | fuel + 1, _ =>
    match hp : pages page with
    | .error e => simp [granolaLoop, hp]
    | .ok docs =>
      simp only [granolaLoop, hp]
      by_cases h1 : docs.isEmpty
      · simp [h1]
      · by_cases h2 : docs.length < granola_page_size
        · simp [h1, h2]
        · simp [h1, h2]

theorem granolaLoop_full_pages {α : Type} (pages : Nat → Except Unit (List α)) :
    ∀ fuel page i, i + 1 < (granolaLoop pages fuel page).2 →
      ∃ d, pages (page + i) = .ok d ∧ granola_page_size ≤ d.length := by
  intro fuel
  induction fuel with
  | zero => intro page i h; simp [granolaLoop] at h
  | succ fuel ih =>
    intro page i h
    match hp : pages page with
    | .error e => simp [granolaLoop, hp] at h
    | .ok docs =>
      simp only [granolaLoop, hp] at h
      by_cases h1 : docs.isEmpty
      · simp [h1] at h
      · by_cases h2 : docs.length < granola_page_size
        · simp [h1, h2] at h
        · simp only [h1, h2, if_neg, if_false] at h
          match i with
          | 0 => exact ⟨docs, by simpa using hp, by omega⟩
          | j + 1 =>
            have hj : j + 1 < (granolaLoop pages fuel (page + 1)).2 := by
              simp at h
              omega
            have := ih (page + 1) j hj
            have harith : page + 1 + j = page + (j + 1) := by omega
            rwa [harith] at this

theorem granolaLoop_stop {α : Type} (pages : Nat → Except Unit (List α)) :
    ∀ fuel page, 1 ≤ (granolaLoop pages fuel page).2 →
      ((granolaLoop pages fuel page).2 = fuel ∨
        (∃ d, pages (page + (granolaLoop pages fuel page).2 - 1) = .ok d ∧
          d.length < granola_page_size) ∨
        pages (page + (granolaLoop pages fuel page).2 - 1) = .error ()) := by
  intro fuel
  induction fuel with
  | zero => intro page h; simp [granolaLoop] at h
  | succ fuel ih =>
    intro page _
    match hp : pages page with
    | .error e =>
      right; right
      simp [granolaLoop, hp]
    | .ok docs =>
      by_cases h1 : docs.isEmpty
      · right; left
        refine ⟨docs, ?_, ?_⟩
        · simp [granolaLoop, hp, h1]
        · have : docs = [] := List.isEmpty_iff.1 h1
          simp [this, granola_page_size]
      · by_cases h2 : docs.length < granola_page_size
        · right; left
          refine ⟨docs, ?_, h2⟩
          simp [granolaLoop, hp, h1, h2]
        · have hn : (granolaLoop pages (fuel + 1) page).2 =
              (granolaLoop pages fuel (page + 1)).2 + 1 := by
            simp [granolaLoop, hp, h1, h2]
          by_cases hf : 0 < fuel
          · have hr := ih (page + 1) (granolaLoop_pos pages fuel (page + 1) hf)
            rcases hr with hr | hr | hr
            · left; omega
            · right; left
              obtain ⟨d, hd, hdl⟩ := hr
              refine ⟨d, ?_, hdl⟩
              rw [hn]
              have hpos := granolaLoop_pos pages fuel (page + 1) hf
              have : page + ((granolaLoop pages fuel (page + 1)).2 + 1) - 1 =
                  page + 1 + (granolaLoop pages fuel (page + 1)).2 - 1 := by omega
              rw [this]
              exact hd
            · right; right
              rw [hn]
              have hpos := granolaLoop_pos pages fuel (page + 1) hf
              have : page + ((granolaLoop pages fuel (page + 1)).2 + 1) - 1 =
                  page + 1 + (granolaLoop pages fuel (page + 1)).2 - 1 := by omega
              rw [this]
              exact hr
          · left
            have hf0 : fuel = 0 := by omega
            subst hf0
            rw [hn]
            simp [granolaLoop]

theorem fyxerLoop_le {α : Type}
    (fetch : Option String → Except Unit (List α × Option String)) :
    ∀ fuel tok, (fyxerLoop fetch fuel tok).2 ≤ fuel := by
  intro fuel
  induction fuel with
  | zero => intro tok; simp [fyxerLoop]
  | succ fuel ih =>
    intro tok
    match hf : fetch tok with
    | .error e => simp [fyxerLoop, hf]
    | .ok (docs, tok2) =>
      simp only [fyxerLoop, hf]
      by_cases h1 : docs.isEmpty
      · simp [h1]
      · by_cases h2 : tokenFalsy tok2
        · simp [h1, h2]
        · simpa [h1, h2] using ih tok2

/-! ## Claim theorems -/

/-- A concrete cipher instance (the identity permutation) used by
closed counterexamples and witnesses; it satisfies the block-cipher
interface `dec (enc d) = d` trivially. -/
def idCipher : Bytes → Bytes → Bytes → Bytes := fun _ _ d => d

/-- C4: the claim — validity iff `expires_at − now > buffer` at every
check — fails on the Granola check `_is_token_expired`: a token whose
margin `expires_at − now` equals the 5-minute buffer exactly is treated
as still valid (not expired), while the claim requires invalid. Here
`obtained_at = 0`, `expires_in = 300`, `now = 0`, so
`expires_at − now = 300 = buffer`. -/
theorem c4_counterexample :
    _is_token_expired 0 300 0 = false ∧
      ((0 : ℚ) + 300) - 0 = _TOKEN_EXPIRY_BUFFER_S := by
  constructor
  · simp only [_is_token_expired, _TOKEN_EXPIRY_BUFFER_S]
    norm_num
  · simp only [_TOKEN_EXPIRY_BUFFER_S]
    norm_num

/-- C4 (amended): the Firebase check is valid iff
`expires_at − now > buffer` with the exact-boundary case invalid, as
claimed; the Granola check `_is_token_expired` is instead non-expired
iff `expires_at − now ≥ buffer`, so exactly at the buffer boundary
Granola still treats the token as valid. -/
theorem c4_validity_boundary (E now o e n : ℚ) :
    (firebase_token_valid E now = true ↔
      E - now > _TOKEN_EXPIRY_BUFFER_S * 1000) ∧
    (firebase_token_valid (now + _TOKEN_EXPIRY_BUFFER_S * 1000) now = false) ∧
    (_is_token_expired o e n = false ↔ (o + e) - n ≥ _TOKEN_EXPIRY_BUFFER_S) ∧
    (_is_token_expired (n + _TOKEN_EXPIRY_BUFFER_S - e) e n = false) := by
  refine ⟨?_, ?_, ?_, ?_⟩
  · simp only [firebase_token_valid, decide_eq_true_eq]
    constructor
    · intro h; linarith
    · intro h; linarith
  · simp only [firebase_token_valid, decide_eq_false_iff_not, not_lt]
    exact le_refl _
  · simp only [_is_token_expired, decide_eq_false_iff_not, not_lt]
    constructor
    · intro h; linarith
    · intro h; linarith
  · simp only [_is_token_expired, decide_eq_false_iff_not, not_lt]
    linarith

/-- C7: `_filter_by_date` keeps every record with a missing date, keeps
every record whose date is at least the cutoff, and drops every record
whose date is strictly below the cutoff. -/
theorem c7_date_filter (cutoff : String) (convs : List RawConversation)
    (c : RawConversation) :
    (c ∈ convs → c.date = none → c ∈ _filter_by_date convs cutoff) ∧
    (∀ d, c ∈ convs → c.date = some d → cutoff ≤ d →
      c ∈ _filter_by_date convs cutoff) ∧
    (∀ d, c.date = some d → d < cutoff → c ∉ _filter_by_date convs cutoff) := by
  rw [filter_by_date_eq]
  refine ⟨?_, ?_, ?_⟩
  · intro hc hd
    exact List.mem_filter.2 ⟨hc, by simp [keptByDate, hd]⟩
  · intro d hc hd hcut
    exact List.mem_filter.2 ⟨hc, by simp [keptByDate, hd, hcut]⟩
  · intro d hd hlt hmem
    have := (List.mem_filter.1 hmem).2
    rw [keptByDate, hd] at this
    simp only [decide_eq_true_eq] at this
    exact absurd this (not_le.2 hlt)

/-- C7 witness at concrete records: a dated-recent record and an
undated record are kept, a too-old record is dropped. -/
theorem c7_date_filter_witness :
    (⟨"claude", "t1", "u1", some "2025-02-01", none⟩ : RawConversation) ∈
      _filter_by_date
        [⟨"claude", "t1", "u1", some "2025-02-01", none⟩,
         ⟨"claude", "t2", "u2", none, none⟩,
         ⟨"claude", "t3", "u3", some "2024-01-01", none⟩] "2025-01-01" ∧
    (⟨"claude", "t2", "u2", none, none⟩ : RawConversation) ∈
      _filter_by_date
        [⟨"claude", "t1", "u1", some "2025-02-01", none⟩,
         ⟨"claude", "t2", "u2", none, none⟩,
         ⟨"claude", "t3", "u3", some "2024-01-01", none⟩] "2025-01-01" ∧
    (⟨"claude", "t3", "u3", some "2024-01-01", none⟩ : RawConversation) ∉
      _filter_by_date
        [⟨"claude", "t1", "u1", some "2025-02-01", none⟩,
         ⟨"claude", "t2", "u2", none, none⟩,
         ⟨"claude", "t3", "u3", some "2024-01-01", none⟩] "2025-01-01" := by
  refine ⟨?_, ?_, ?_⟩
  · exact (c7_date_filter "2025-01-01" _ _).2.1 "2025-02-01" (by decide) rfl
      (by rw [String.le_iff_toList_le]; decide)
  · exact (c7_date_filter "2025-01-01" _ _).1 (by decide) rfl
  · exact (c7_date_filter "2025-01-01" _ _).2.2 "2024-01-01" rfl
      (by rw [String.lt_iff_toList_lt]; decide)

/-- C1: the claim — grouping partitions into ordered runs, so
`[p1, p2, p3]` with `p1, p3` in profile A and `p2` in profile B yields
the three groups `[(A,[p1]), (B,[p2]), (A,[p3])]` — is false on
`group_platforms_by_profile`: for `["claude", "gemini", "chatgpt"]`
(claude and chatgpt share `personal`, gemini is `company`) the function
merges the two non-contiguous personal platforms into a single group,
returning two groups, not three runs. -/
theorem c1_counterexample :
    group_platforms_by_profile ["claude", "gemini", "chatgpt"] DEFAULT_PROFILES =
      [(some ⟨"personal", ["claude", "chatgpt"]⟩, ["claude", "chatgpt"]),
       (some ⟨"company", ["gemini", "fyxer", "granola"]⟩, ["gemini"])] ∧
    group_platforms_by_profile ["claude", "gemini", "chatgpt"] DEFAULT_PROFILES ≠
      [(some ⟨"personal", ["claude", "chatgpt"]⟩, ["claude"]),
       (some ⟨"company", ["gemini", "fyxer", "granola"]⟩, ["gemini"]),
       (some ⟨"personal", ["claude", "chatgpt"]⟩, ["chatgpt"])] := by
  constructor
  · decide
  · decide

/-- C1 (amended): `group_platforms_by_profile` returns one group per
distinct profile key in first-encounter order; each group carries all
requested platforms of that profile in their original relative order,
merging non-contiguous same-profile platforms into the one group. For
`[p1, p2, p3]` with `p1, p3` in profile A and `p2` in profile B the
groups are `[(A, [p1, p3]), (B, [p2])]`, and running them causes one
profile-switch termination (A to B). -/
theorem c1_grouping_merged (platforms : List String) (profiles : List CDPProfile)
    (g : Option CDPProfile × List String)
    (hg : g ∈ group_platforms_by_profile platforms profiles) :
    ((group_platforms_by_profile platforms profiles).map (fun x => profileKey x.1) =
      encounterDedup (platforms.map (platformKey profiles))) ∧
    g.2 = platforms.filter (fun q => platformKey profiles q = profileKey g.1) ∧
    group_platforms_by_profile ["claude", "gemini", "chatgpt"] DEFAULT_PROFILES =
      [(some ⟨"personal", ["claude", "chatgpt"]⟩, ["claude", "chatgpt"]),
       (some ⟨"company", ["gemini", "fyxer", "granola"]⟩, ["gemini"])] ∧
    (∀ (cF : String → Except String (List RawConversation))
       (pF : String → List RawConversation → Except String Nat),
      countCloses (run_groups cF pF
        (group_platforms_by_profile ["claude", "gemini", "chatgpt"]
          DEFAULT_PROFILES)).events = 1) := by
  refine ⟨group_keys platforms profiles,
    group_lists platforms profiles g hg, by decide, ?_⟩
  intro cF pF
  rw [run_groups_events, countCloses_groupBlocks]
  decide

/-- C1 witness: the theorem applied to the concrete scenario group. -/
theorem c1_grouping_merged_witness :
    (group_platforms_by_profile ["claude", "gemini", "chatgpt"]
        DEFAULT_PROFILES).map (fun x => profileKey x.1) =
      encounterDedup (["claude", "gemini", "chatgpt"].map
        (platformKey DEFAULT_PROFILES)) ∧
    (["claude", "chatgpt"] : List String) =
      ["claude", "gemini", "chatgpt"].filter
        (fun q => platformKey DEFAULT_PROFILES q =
          profileKey (some ⟨"personal", ["claude", "chatgpt"]⟩)) :=
  ⟨(c1_grouping_merged ["claude", "gemini", "chatgpt"] DEFAULT_PROFILES
      (some ⟨"personal", ["claude", "chatgpt"]⟩, ["claude", "chatgpt"])
      (by decide)).1,
   (c1_grouping_merged ["claude", "gemini", "chatgpt"] DEFAULT_PROFILES
      (some ⟨"personal", ["claude", "chatgpt"]⟩, ["claude", "chatgpt"])
      (by decide)).2.1⟩

/-- C8: the claim — every switch between different profiles triggers
exactly one termination — fails when the earlier group is the unmapped
(`None`) fallback group: `run_all`'s guard requires
`last_profile_name is not None`, so switching from the fallback group to
a named profile closes nothing. For `["unknownplatform", "claude"]` the
groups are the fallback group then `personal`, a profile switch, yet the
trace has zero terminations. -/
theorem c8_counterexample :
    (group_platforms_by_profile ["unknownplatform", "claude"]
        DEFAULT_PROFILES).map (fun g => profileKey g.1) =
      [none, some "personal"] ∧
    countCloses (run_groups (fun _ => .ok []) (fun _ _ => .ok 0)
      (group_platforms_by_profile ["unknownplatform", "claude"]
        DEFAULT_PROFILES)).events = 0 := by
  constructor
  · decide
  · rw [run_groups_events, countCloses_groupBlocks]
    decide

/-- C8 (amended): along any group sequence the runner emits exactly one
termination per switch whose previous group has a named profile, and
zero terminations between consecutive same-profile groups, between
platforms inside one group, or when the previous group is the unmapped
fallback (`None`) group: the trace is the per-group blocks, and its
close count is the number of named profile switches of the key
sequence. -/
theorem c8_switch_closes
    (cF : String → Except String (List RawConversation))
    (pF : String → List RawConversation → Except String Nat)
    (groups : List (Option CDPProfile × List String)) :
    (run_groups cF pF groups).events = groupBlocks none groups ∧
    countCloses (run_groups cF pF groups).events =
      namedSwitches none (groups.map (fun g => profileKey g.1)) := by
  refine ⟨run_groups_events cF pF groups, ?_⟩
  rw [run_groups_events, countCloses_groupBlocks]

/-- C2: `run_all` records a per-platform count for every requested
platform — the persisted count on success and zero when collecting or
persisting that platform raised — without itself raising (the model is
total by construction); `collect_claude` returns `[]` when its cookie
lookup raises, persisting a count of 0; and one platform's outcome
depends only on its own collect/persist behaviour, leaving every other
platform unaffected. -/
theorem c2_run_all_degrades (platforms : List String) (profiles : List CDPProfile)
    (cF : String → Except String (List RawConversation))
    (pF : String → List RawConversation → Except String Nat)
    (q : String) (hq : q ∈ platforms) :
    lookupA (run_all platforms profiles none cF pF).results q =
      some (outcomeCount cF pF q) ∧
    (∀ e, cF q = .error e →
      lookupA (run_all platforms profiles none cF pF).results q = some 0) ∧
    (∀ (e : String) fo fc cutoff, collect_claude (.error e) fo fc cutoff = [] ∧
      _persist_conversations (collect_claude (.error e) fo fc cutoff) = 0) ∧
    (∀ (cF2 : String → Except String (List RawConversation))
       (pF2 : String → List RawConversation → Except String Nat)
       (q2 : String), q2 ∈ platforms → cF2 q2 = cF q2 → pF2 q2 = pF q2 →
      lookupA (run_all platforms profiles none cF2 pF2).results q2 =
        lookupA (run_all platforms profiles none cF pF).results q2) := by
  have hmain : ∀ (cF' : String → Except String (List RawConversation))
      (pF' : String → List RawConversation → Except String Nat)
      (q' : String), q' ∈ platforms →
      lookupA (run_all platforms profiles none cF' pF').results q' =
        some (outcomeCount cF' pF' q') := by
    intro cF' pF' q' hq'
    show lookupA (run_groups cF' pF'
      (group_platforms_by_profile platforms profiles)).results q' = _
    rw [lookup_run_groups]
    rw [if_pos ((mem_groupsPlatforms platforms profiles q').2 hq')]
  refine ⟨hmain cF pF q hq, ?_, ?_, ?_⟩
  · intro e he
    rw [hmain cF pF q hq]
    simp [outcomeCount, he, Except.bind]
  · intro e fo fc cutoff
    exact ⟨rfl, rfl⟩
  · intro cF2 pF2 q2 hq2 hc hp
    rw [hmain cF2 pF2 q2 hq2, hmain cF pF q2 hq2, outcomeCount, outcomeCount, hc, hp]

/-- C2 witness: with a claude adapter whose credential lookup raises
and a gemini adapter returning one record, claude records count 0 and
gemini is unaffected with count 1. -/
theorem c2_run_all_degrades_witness :
    lookupA (run_all ["claude", "gemini"] DEFAULT_PROFILES none
      (fun p => if p = "claude" then .error "cookie missing"
        else .ok [⟨"gemini", "t", "u", none, none⟩])
      (fun _ convs => .ok (_persist_conversations convs))).results "claude" =
        some 0 ∧
    lookupA (run_all ["claude", "gemini"] DEFAULT_PROFILES none
      (fun p => if p = "claude" then .error "cookie missing"
        else .ok [⟨"gemini", "t", "u", none, none⟩])
      (fun _ convs => .ok (_persist_conversations convs))).results "gemini" =
        some 1 := by
  constructor
  · exact (c2_run_all_degrades ["claude", "gemini"] DEFAULT_PROFILES
      (fun p => if p = "claude" then .error "cookie missing"
        else .ok [⟨"gemini", "t", "u", none, none⟩])
      (fun _ convs => .ok (_persist_conversations convs))
      "claude" (by decide)).2.1 "cookie missing" rfl
  · have h := (c2_run_all_degrades ["claude", "gemini"] DEFAULT_PROFILES
      (fun p => if p = "claude" then .error "cookie missing"
        else .ok [⟨"gemini", "t", "u", none, none⟩])
      (fun _ convs => .ok (_persist_conversations convs))
      "gemini" (by decide)).1
    rw [h]
    decide

/-- C3: the claim — decrypt is a left inverse of encrypt for every
plaintext and every supported schema version — fails at the empty
plaintext for schema version ≥ 24: the 32-byte domain-hash strip is
guarded by `len(decrypted) > 32`, and an empty value leaves exactly 32
bytes after unpadding, so the hash is not stripped and decryption
returns the domain hash instead of the empty value. (The identity
permutation instantiates the abstract AES-CBC cipher.) -/
theorem c3_counterexample :
    _decrypt_value idCipher
      (encrypt_value idCipher [] (List.replicate 32 0) [] 24) []
      "example.com" 24 = some (List.replicate 32 0) ∧
    (List.replicate 32 0 : Bytes) ≠ [] := by
  constructor
  · decide
  · decide

/-- C3 (amended): for any cipher pair satisfying the CBC library
contract (`dec` inverts `enc` on block-aligned buffers, lengths
preserved) and a 32-byte domain hash, decrypting the correctly
encrypted form returns exactly the plaintext for every value when the
schema version is below 24, and for every non-empty value when the
schema version is at least 24 (the empty value is the one exception,
per the counterexample). -/
theorem c3_roundtrip_versions (enc dec : Bytes → Bytes → Bytes → Bytes)
    (key domainHash x : Bytes) (domain : String) (db_version : Nat)
    (hlen : ∀ k iv d, (enc k iv d).length = d.length)
    (hinv : ∀ k iv d, 16 ∣ d.length → dec k iv (enc k iv d) = d)
    (hhash : domainHash.length = 32) :
    (db_version < 24 →
      _decrypt_value dec (encrypt_value enc key domainHash x db_version) key
        domain db_version = some x) ∧
    (24 ≤ db_version → x ≠ [] →
      _decrypt_value dec (encrypt_value enc key domainHash x db_version) key
        domain db_version = some x) :=
  ⟨fun hv => decrypt_encrypt_lt24 enc dec key domainHash x domain db_version
      hlen hinv hv,
   fun hv hx => decrypt_encrypt_ge24 enc dec key domainHash x domain db_version
      hlen hinv hhash hv hx⟩

/-- C3 witness: concrete round trips through the identity cipher at
schema versions 20 and 24. -/
theorem c3_roundtrip_versions_witness :
    _decrypt_value idCipher
      (encrypt_value idCipher [] (List.replicate 32 0) [104, 105] 20) []
      "example.com" 20 = some [104, 105] ∧
    _decrypt_value idCipher
      (encrypt_value idCipher [] (List.replicate 32 0) [104, 105] 24) []
      "example.com" 24 = some [104, 105] := by
  constructor
  · exact (c3_roundtrip_versions idCipher idCipher [] (List.replicate 32 0)
      [104, 105] "example.com" 20 (fun _ _ _ => rfl) (fun _ _ _ _ => rfl)
      (by decide)).1 (by decide)
  · exact (c3_roundtrip_versions idCipher idCipher [] (List.replicate 32 0)
      [104, 105] "example.com" 24 (fun _ _ _ => rfl) (fun _ _ _ _ => rfl)
      (by decide)).2 (by decide) (by decide)

/-- C5: the claim — decrypting a single value never raises, and no
single undecryptable cookie aborts the rest — fails for a `v10`-tagged
blob whose payload is not a multiple of the 16-byte AES block: the
library call raises `ValueError` (modelled as `none`), `_decrypt_value`
does not catch it, and `get_cookies_for_domain` loses every other
cookie of the domain read. The 4-byte blob `b"v10A"` aborts a read that
also contains a perfectly good plaintext cookie. -/
theorem c5_counterexample :
    _decrypt_value idCipher [118, 49, 48, 65] [] "example.com" 20 = none ∧
    get_cookies_for_domain idCipher []
      ⟨20, [⟨"example.com", "bad", [], [118, 49, 48, 65]⟩,
            ⟨"example.com", "good", [103], []⟩]⟩ "example.com" = none := by
  constructor
  · decide
  · decide

/-- C5 (amended): a blob whose 3-byte tag is not `v10` yields the empty
string without an exception (as does any blob of at most 3 bytes); the
only way `_decrypt_value` raises is a `v10`-tagged blob longer than 3
bytes whose payload is not block-aligned, and `get_cookies_for_domain`
raises exactly when some selected row carries such an undecryptable
blob (aborting the remaining cookies), never otherwise. -/
theorem c5_unrecognized_tag (dec : Bytes → Bytes → Bytes → Bytes)
    (key encrypted : Bytes) (domain : String) (db_version : Nat) :
    (encrypted.take 3 ≠ v10Tag →
      _decrypt_value dec encrypted key domain db_version = some []) ∧
    (_decrypt_value dec encrypted key domain db_version = none ↔
      3 < encrypted.length ∧ encrypted.take 3 = v10Tag ∧
        ¬ (16 ∣ (encrypted.drop 3).length)) ∧
    (∀ db : CookieDB, get_cookies_for_domain dec key db domain = none ↔
      ∃ r ∈ db.rows.filter (hostMatches domain),
        rowAborts dec key db.version r) := by
  refine ⟨?_, ?_, ?_⟩
  · intro htag
    by_cases hlen : encrypted.length ≤ 3
    · simp [_decrypt_value, hlen]
    · simp [_decrypt_value, hlen, htag]
  · by_cases hlen : encrypted.length ≤ 3
    · simp only [_decrypt_value, if_pos hlen]
      constructor
      · intro h; exact absurd h (by simp)
      · intro h; omega
    · by_cases htag : encrypted.take 3 = v10Tag
      · by_cases hdvd : 16 ∣ (encrypted.drop 3).length
        · have hdvd2 : 16 ∣ encrypted.length - 3 := by simpa using hdvd
          have hsome : _decrypt_value dec encrypted key domain db_version ≠ none := by
            simp [_decrypt_value, hlen, htag, hdvd2]
          constructor
          · intro h
            exact absurd h hsome
          · rintro ⟨_, _, hd⟩
            exact absurd hdvd hd
        · have hdvd2 : ¬ 16 ∣ encrypted.length - 3 := by simpa using hdvd
          have hnone : _decrypt_value dec encrypted key domain db_version = none := by
            simp [_decrypt_value, hlen, htag, hdvd2]
          rw [hnone]
          constructor
          · intro _
            exact ⟨by omega, htag, hdvd⟩
          · intro _
            rfl
      · have hsome : _decrypt_value dec encrypted key domain db_version = some [] := by
          simp [_decrypt_value, hlen, htag]
        rw [hsome]
        constructor
        · intro h
          exact absurd h (by simp)
        · rintro ⟨_, hc, _⟩
          exact absurd hc htag
  · intro db
    exact cookieFold_none_iff dec key db.version
      (db.rows.filter (hostMatches domain)) []

/-- C5 witness: a concrete unrecognized tag (`b"v20"`) returns the
empty value. -/
theorem c5_unrecognized_tag_witness :
    _decrypt_value idCipher [118, 50, 48, 65, 66] [] "example.com" 20 =
      some [] :=
  (c5_unrecognized_tag idCipher [] [118, 50, 48, 65, 66] "example.com" 20).1
    (by decide)

/-- A concrete Fyxer endpoint for the C6 counterexample: the first page
has 3 items (far below the page size of 50) but carries a next-page
token; the second page ends the listing. -/
def shortPageFetch : Option String → Except Unit (List Nat × Option String) :=
  fun t => match t with
  | none => .ok ([1, 2, 3], some "page2")
  | some _ => .ok ([4, 5], none)

/-- C6: the claim — every adapter's pagination loop stops at the first
page whose item count is below the page size — is false for the Fyxer
loop, which is token-driven: a 3-item first page with a next-page token
is followed by a second fetch (2 fetches, 5 items), where the claim
predicts a single fetch. -/
theorem c6_counterexample :
    (collect_fyxer_pages shortPageFetch).2 = 2 ∧
    (collect_fyxer_pages shortPageFetch).1 = [1, 2, 3, 4, 5] ∧
    ([1, 2, 3] : List Nat).length < 50 := by
  refine ⟨?_, ?_, ?_⟩
  · decide
  · decide
  · decide

/-- C6 (amended): the Granola (offset-based) loop makes between 1 and
100 fetches, every fetch before the last returns a full page of 50, and
it stops either at the 100-page maximum or at a page that is short,
empty or errored, whichever comes first; the Fyxer (token-based) loop
makes at most its 50-fetch maximum, stops after a non-empty page whose
next-page token is falsy, and otherwise continues to the returned
token. Both loops are bounded even against a non-terminating
endpoint. -/
theorem c6_pagination_bounds {α β : Type} (pages : Nat → Except Unit (List α))
    (fetch : Option String → Except Unit (List β × Option String)) :
    1 ≤ (collect_granola_pages pages).2 ∧
    (collect_granola_pages pages).2 ≤ granola_MAX_PAGES ∧
    (∀ i, i + 1 < (collect_granola_pages pages).2 →
      ∃ d, pages i = .ok d ∧ granola_page_size ≤ d.length) ∧
    ((collect_granola_pages pages).2 = granola_MAX_PAGES ∨
      (∃ d, pages ((collect_granola_pages pages).2 - 1) = .ok d ∧
        d.length < granola_page_size) ∨
      pages ((collect_granola_pages pages).2 - 1) = .error ()) ∧
    (collect_fyxer_pages fetch).2 ≤ fyxer_MAX_PAGES ∧
    (∀ tok docs tok2 fuel, fetch tok = .ok (docs, tok2) → docs ≠ [] →
      tokenFalsy tok2 → fyxerLoop fetch (fuel + 1) tok = (docs, 1)) ∧
    (∀ tok docs tok2 fuel, fetch tok = .ok (docs, tok2) → docs ≠ [] →
      ¬ tokenFalsy tok2 = true → fyxerLoop fetch (fuel + 1) tok =
        (docs ++ (fyxerLoop fetch fuel tok2).1,
          (fyxerLoop fetch fuel tok2).2 + 1)) := by
  refine ⟨granolaLoop_pos pages granola_MAX_PAGES 0 (by decide),
    granolaLoop_le pages granola_MAX_PAGES 0, ?_, ?_, fyxerLoop_le fetch fyxer_MAX_PAGES none, ?_, ?_⟩
  · intro i hi
    have := granolaLoop_full_pages pages granola_MAX_PAGES 0 i hi
    simpa using this
  · have := granolaLoop_stop pages granola_MAX_PAGES 0
      (granolaLoop_pos pages granola_MAX_PAGES 0 (by decide))
    simpa using this
  · intro tok docs tok2 fuel hf hne htok
    have h1 : docs.isEmpty = false := by
      simp [List.isEmpty_iff, hne]
    simp [fyxerLoop, hf, h1, htok]
  · intro tok docs tok2 fuel hf hne htok
    have h1 : docs.isEmpty = false := by
      simp [List.isEmpty_iff, hne]
    simp [fyxerLoop, hf, h1, htok]

/-- C6 witness: concrete endpoints — an always-empty Granola endpoint
makes exactly one fetch (short first page), and a one-page Fyxer
endpoint stops after its single tokenless page. -/
theorem c6_pagination_bounds_witness :
    (collect_granola_pages (fun _ => .ok ([] : List Nat))).2 ≤
      granola_MAX_PAGES ∧
    fyxerLoop (fun _ => .ok (([7] : List Nat), none)) 5 none = ([7], 1) := by
  constructor
  · exact (c6_pagination_bounds (fun _ => .ok ([] : List Nat))
      (fun _ => .ok (([7] : List Nat), none))).2.1
  · exact (c6_pagination_bounds (fun _ => .ok ([] : List Nat))
      (fun _ => .ok (([7] : List Nat), none))).2.2.2.2.2.1 none [7] none 4
      rfl (by decide) (by decide)

/-- C9: `get_cookies_for_domain` draws every returned cookie from a row
whose host key is exactly the domain or its dotted-parent form, every
selected row with a non-empty resolved value lands in the merged map,
and in the claim's scenario — `.example.com` holding a plaintext cookie
and `example.com` holding a v10-encrypted cookie — both cookies are
returned merged. -/
theorem c9_domain_merge (enc dec : Bytes → Bytes → Bytes → Bytes) (key : Bytes)
    (db : CookieDB) (domain : String) (m : List (String × Bytes))
    (plain p : Bytes)
    (hm : get_cookies_for_domain dec key db domain = some m)
    (hlen : ∀ k iv d, (enc k iv d).length = d.length)
    (hinv : ∀ k iv d, 16 ∣ d.length → dec k iv (enc k iv d) = d)
    (hplain : plain ≠ []) (hp : p ≠ []) :
    (∀ nm v, lookupA m nm = some v →
      ∃ r ∈ db.rows, (r.host_key = domain ∨ r.host_key = "." ++ domain) ∧
        r.name = nm ∧ rowContrib dec key db.version r = some v) ∧
    (∀ r ∈ db.rows, (r.host_key = domain ∨ r.host_key = "." ++ domain) →
      rowContrib dec key db.version r ≠ none → lookupA m r.name ≠ none) ∧
    get_cookies_for_domain dec key
      ⟨20, [⟨"." ++ domain, "session", plain, []⟩,
            ⟨domain, "a", [], encrypt_value enc key [] p 20⟩]⟩ domain =
      some [("session", plain), ("a", p)] := by
  have hmem : ∀ r : CookieRow, hostMatches domain r = true ↔
      (r.host_key = domain ∨ r.host_key = "." ++ domain) := by
    intro r
    simp [hostMatches]
  refine ⟨?_, ?_, ?_⟩
  · intro nm v hv
    rcases cookieFold_lookup_sound dec key db.version
        (db.rows.filter (hostMatches domain)) [] m hm nm v hv with
      ⟨r, hr, hname, hcontrib⟩ | hbase
    · obtain ⟨hrdb, hrmatch⟩ := List.mem_filter.1 hr
      exact ⟨r, hrdb, (hmem r).1 hrmatch, hname, hcontrib⟩
    · simp [lookupA] at hbase
  · intro r hr hmatch hcontrib
    exact cookieFold_complete dec key db.version
      (db.rows.filter (hostMatches domain)) [] m hm r
      (List.mem_filter.2 ⟨hr, (hmem r).2 hmatch⟩) hcontrib
  · have hdec := decrypt_encrypt_lt24 enc dec key [] p domain 20 hlen hinv
      (by omega)
    have hencne : encrypt_value enc key [] p 20 ≠ [] := by
      simp [encrypt_value, v10Tag]
    have hmatch1 : hostMatches domain
        (⟨"." ++ domain, "session", plain, []⟩ : CookieRow) = true := by
      simp [hostMatches]
    have hmatch2 : hostMatches domain
        (⟨domain, "a", [], encrypt_value enc key [] p 20⟩ : CookieRow) = true := by
      simp [hostMatches]
    have hsession : ("session" : String) ≠ "a" := by decide
    simp only [get_cookies_for_domain, List.filter_cons, hmatch1, hmatch2,
      if_pos, List.filter_nil]
    rw [List.foldlM_cons]
    have hstep1 : cookieStep dec key 20 []
        (⟨"." ++ domain, "session", plain, []⟩ : CookieRow) =
        some [("session", plain)] := by
      simp [cookieStep, hplain, setA]
    rw [hstep1]
    show List.foldlM (cookieStep dec key 20) [("session", plain)] _ = _
    rw [List.foldlM_cons]
    have hstep2 : cookieStep dec key 20 [("session", plain)]
        (⟨domain, "a", [], encrypt_value enc key [] p 20⟩ : CookieRow) =
        some [("session", plain), ("a", p)] := by
      simp only [cookieStep, ne_eq, not_true_eq_false, if_false,
        not_false_eq_true, if_true, hencne, hdec]
      simp [hp, setA, hsession]
    rw [hstep2]
    rfl

/-- C9 witness: the scenario computed concretely through the identity
cipher. -/
theorem c9_domain_merge_witness :
    get_cookies_for_domain idCipher []
      ⟨20, [⟨"." ++ "example.com", "session", [115], []⟩,
            ⟨"example.com", "a", [], encrypt_value idCipher [] [] [104] 20⟩]⟩
      "example.com" = some [("session", [115]), ("a", [104])] :=
  (c9_domain_merge idCipher idCipher [] ⟨20, []⟩ "example.com" [] [115] [104]
    rfl (fun _ _ _ => rfl) (fun _ _ _ _ => rfl) (by decide) (by decide)).2.2

/-- C10: every value in the returned cookie map is non-empty (a cookie
whose only value decrypts to the empty string is omitted, not mapped to
the empty string), and when a row's plaintext `value` column is
non-empty the encrypted blob is ignored entirely — replacing it by any
bytes leaves the result unchanged, so no decryption outcome can matter.
The final conjunct shows a store whose single cookie decrypts to the
empty value yielding an empty map. -/
theorem c10_plain_wins (dec : Bytes → Bytes → Bytes → Bytes) (key : Bytes)
    (db : CookieDB) (domain : String) (m : List (String × Bytes))
    (pre post : List CookieRow) (r : CookieRow) (b : Bytes)
    (hm : get_cookies_for_domain dec key db domain = some m)
    (hrows : db.rows = pre ++ r :: post) (hplain : r.value ≠ []) :
    (∀ nm v, lookupA m nm = some v → v ≠ []) ∧
    get_cookies_for_domain dec key
      ⟨db.version, pre ++ (⟨r.host_key, r.name, r.value, b⟩ : CookieRow) :: post⟩
      domain = some m ∧
    get_cookies_for_domain idCipher []
      ⟨20, [⟨"example.com", "a", [], v10Tag ++ List.replicate 16 16⟩]⟩
      "example.com" = some [] := by
  refine ⟨?_, ?_, ?_⟩
  · exact cookieFold_values_ne_nil dec key db.version
      (db.rows.filter (hostMatches domain)) [] m hm
      (by intro nm v hv; simp [lookupA] at hv)
  · have hdb : db = ⟨db.version, pre ++ r :: post⟩ := by
      cases db with
      | mk version rows =>
        simp only at hrows
        rw [hrows]
    rw [← get_cookies_enc_irrelevant dec key db.version pre post r b domain hplain]
    rw [← hdb]
    exact hm
  · decide

/-- C10 witness: a row with a non-empty plaintext value keeps its value
with the encrypted blob replaced by arbitrary bytes. -/
theorem c10_plain_wins_witness :
    get_cookies_for_domain idCipher []
      ⟨20, [⟨"example.com", "n", [110], [1, 2, 3]⟩]⟩ "example.com" =
      some [("n", [110])] :=
  (c10_plain_wins idCipher [] ⟨20, [⟨"example.com", "n", [110], [9, 9, 9]⟩]⟩
    "example.com" [("n", [110])] [] [] ⟨"example.com", "n", [110], [9, 9, 9]⟩
    [1, 2, 3] (by decide) rfl (by decide)).2.1

end SjHomeAgent
